import Mathlib

/-!
# Verification of the dynamic_bundling prototype-chain and relationship-mirror core

Shallow embedding of `src/lib.rs`:

* `DynBundle` (the prototype chain): a persistent linked list of type-erased
  component operations.  The Rust closure stored in the `bundle` field is one
  of three shapes — `entity.insert(bundle.clone())`, `entity.remove::<B>()`,
  or the no-op of `Default` — so it is embedded as the tagged `Op` type.
  Components are modelled as an association list from a component-type id
  (`Nat`) to a value (`Nat`), with "insert overwrites" semantics.
* The deferred one-shot commands (`DynBundleCommand`, `ChildrenCommand`) over
  a world with an aliveness predicate, where `none` models a panic.
* The `Target`/`TargetBy` relationship-mirror hooks and the deferred command
  queue, as a state-transition system (`MirrorState`, `Reachable`).
-/

/-- A component store for one entity: association list from component-type id
to value.  Mirrors the host store's typed component storage at the boundary
described in the spec (§6): `insert` overwrites, `remove` deletes. -/
abbrev CompMap := List (Nat × Nat)

/-- Insert one component, overwriting any existing component of the same type
(the new value is placed at the end; only presence/value are observable). -/
def insertComp (m : CompMap) (c v : Nat) : CompMap :=
  (List.filter (fun p => p.fst != c) m) ++ [(c, v)]

/-- The three shapes of closure stored in a `DynBundle` node's `bundle` field:
`entity.insert(bundle.clone())` with a concrete component set, a typed
`entity.remove::<B>()` for the component types of `B`, and the no-op closure
of `impl Default for DynBundle`. -/
inductive Op where
  | ins (comps : List (Nat × Nat))
  | rem (types : List Nat)
  | nop
deriving DecidableEq

/-- Execute one operation against one entity's component store, exactly as the
corresponding closure would against `EntityWorldMut`. -/
def applyOp : Op → CompMap → CompMap
  | .ins comps, m => comps.foldl (fun m cv => insertComp m cv.fst cv.snd) m
  | .rem types, m => List.filter (fun p => !(types.contains p.fst)) m
  | .nop, m => m

/-- `DynBundle` from `lib.rs`: `{ bundle: BundleFn, parent: Option<Arc<DynBundle>> }`.
The `Option`-typed parent is embedded as the two constructors: `root op` is a
node with `parent: None`, `node op p` a node with `parent: Some(p)`. -/
inductive DynBundle where
  | root (op : Op)
  | node (op : Op) (parent : DynBundle)

/-- `DynBundle::new`: no parent, operation inserts the given components. -/
def DynBundle.new (comps : List (Nat × Nat)) : DynBundle :=
  .root (.ins comps)

/-- `DynBundle::insert`: new node whose parent is `self`. -/
def DynBundle.insert (self : DynBundle) (comps : List (Nat × Nat)) : DynBundle :=
  .node (.ins comps) self

/-- `DynBundle::remove::<B>`: new node whose parent is `self`, removing the
component types of `B`. -/
def DynBundle.remove (self : DynBundle) (types : List Nat) : DynBundle :=
  .node (.rem types) self

/-- `impl Default for DynBundle`: no-op bundle, no parent. -/
def DynBundle.default : DynBundle := .root .nop

/-- Number of nodes of a chain (used for the termination of `append`). -/
def DynBundle.size : DynBundle → Nat
  | .root _ => 1
  | .node _ p => p.size + 1

/-- `DynBundle::append` exactly as written in the source:
the result keeps `other`'s `bundle`; if `other` has a parent, that parent is
recursively appended with `self` as argument, else the parent becomes `self`. -/
def DynBundle.append : DynBundle → DynBundle → DynBundle
  | self, .root op => .node op self
  | self, .node op p => .node op (p.append self)
termination_by self other => self.size + other.size
decreasing_by simp [DynBundle.size]; omega

/-- `DynBundle::append_some` exactly as written in the source: the result of
`self.append(bundle)` is computed and then discarded (the Rust statement
`self.append(bundle);`), and `self.clone()` is returned in every case. -/
def DynBundle.append_some (self : DynBundle) (opt : Option DynBundle) : DynBundle :=
  match opt with
  | some b =>
    let _ := self.append b
    self
  | none => self

/-- `DynBundle::apply`: recursively apply the parent first, then the node's
own operation. -/
def applyChain : DynBundle → CompMap → CompMap
  | .root op, m => applyOp op m
  | .node op p, m => applyOp op (applyChain p m)

/-- The execution order of a chain, root to leaf: the list of operations in
the order `apply` executes them. -/
def DynBundle.trace : DynBundle → List Op
  | .root op => [op]
  | .node op p => p.trace ++ [op]

/-- `apply` executes exactly the operations of `trace`, in trace order. -/
theorem applyChain_eq_foldl_trace (c : DynBundle) (m : CompMap) :
    applyChain c m = (DynBundle.trace c).foldl (fun m op => applyOp op m) m := by
  induction c generalizing m with
  | root op => rfl
  | node op p ih =>
    simp [applyChain, DynBundle.trace, List.foldl_append, ih]

/-- C2 counterexample: for `other = [o1, o2]` and `chain = [c1, c2]` with
`o1 = Insert{(0,1)}`, `o2 = Insert{(0,2)}`, `c1 = Insert{(0,3)}`,
`c2 = Insert{(0,4)}`, the execution order of `chain.append(other)` is not
`o1, o2, c1, c2`, and the final value of component type 0 is `other`'s leaf
value 2, not `chain`'s value 4 — so `chain` does not win the overlap. -/
theorem append_claimed_order_fails :
    ¬ (((DynBundle.node (Op.ins [(0, 4)]) (.root (Op.ins [(0, 3)]))).append
          (DynBundle.node (Op.ins [(0, 2)]) (.root (Op.ins [(0, 1)])))).trace
        = [Op.ins [(0, 1)], Op.ins [(0, 2)], Op.ins [(0, 3)], Op.ins [(0, 4)]]) ∧
    applyChain ((DynBundle.node (Op.ins [(0, 4)]) (.root (Op.ins [(0, 3)]))).append
          (DynBundle.node (Op.ins [(0, 2)]) (.root (Op.ins [(0, 1)])))) []
        = [(0, 2)] := by
  constructor
  · simp [DynBundle.append, DynBundle.trace]
  · simp [DynBundle.append, applyChain, applyOp, insertComp]

/-- C2 (amended): for two chains `other = [o1, o2]` (o1 root, o2 leaf) and
`chain = [c1, c2]`, `chain.append(other)` executes the operations in the
interleaved order `c1, o1, c2, o2` — the two lineages alternate starting from
`chain`'s root, `other`'s leaf runs last and therefore wins any overlapping
component type. -/
theorem append_interleaved_order (o1 o2 c1 c2 : Op) :
    ((DynBundle.node c2 (.root c1)).append (DynBundle.node o2 (.root o1))).trace
      = [c1, o1, c2, o2] ∧
    ∀ m, applyChain ((DynBundle.node c2 (.root c1)).append (DynBundle.node o2 (.root o1))) m
      = applyOp o2 (applyOp c2 (applyOp o1 (applyOp c1 m))) := by
  constructor
  · simp [DynBundle.append, DynBundle.trace]
  · intro m
    simp [DynBundle.append, applyChain]

/-- C3: `append_some(chain, Some(other))` returns `chain` itself — the result
of `self.append(bundle)` is discarded by the source — so for
`chain = root({0 ↦ 1})` and `other = root({1 ↦ 1})` the applied result lacks
component 1, while the result of the actual `append` contains it. -/
theorem append_some_discards_append :
    DynBundle.append_some (DynBundle.new [(0, 1)]) (some (DynBundle.new [(1, 1)]))
      = DynBundle.new [(0, 1)] ∧
    applyChain
        (DynBundle.append_some (DynBundle.new [(0, 1)]) (some (DynBundle.new [(1, 1)]))) []
      = [(0, 1)] ∧
    applyChain ((DynBundle.new [(0, 1)]).append (DynBundle.new [(1, 1)])) []
      = [(0, 1), (1, 1)] := by
  refine ⟨rfl, rfl, ?_⟩
  simp [DynBundle.new, DynBundle.append, applyChain, applyOp, insertComp]

/-- C5: `apply` executes a chain's operations in strict root-to-leaf order
(the parent is recursively applied before the node's own operation), so the
later of two conflicting operations wins: `insert(insert(root({}), A), rem A)`
applied to a fresh entity lacks A, while
`insert(remove(insert(root({}), A), A), A)` applied to a fresh entity has A
(with A = component type 0). -/
theorem apply_is_root_to_leaf :
    (∀ (c : DynBundle) (m : CompMap),
        applyChain c m = c.trace.foldl (fun m op => applyOp op m) m) ∧
    (∀ (op : Op) (p : DynBundle) (m : CompMap),
        applyChain (.node op p) m = applyOp op (applyChain p m)) ∧
    applyChain (((DynBundle.new []).insert [(0, 1)]).remove [0]) [] = [] ∧
    applyChain ((((DynBundle.new []).insert [(0, 1)]).remove [0]).insert [(0, 1)]) []
      = [(0, 1)] := by
  refine ⟨applyChain_eq_foldl_trace, fun op p m => rfl, ?_, ?_⟩ <;>
    simp [DynBundle.new, DynBundle.insert, DynBundle.remove, applyChain, applyOp, insertComp]

/-- C6: chain construction is persistent: with `base = root({0 ↦ 1})`,
`child1 = insert(base, {1 ↦ 1})` and `child2 = insert(base, {2 ↦ 1})`,
applying `child1` to a fresh entity yields exactly {0, 1}, applying `child2`
yields exactly {0, 2}, and applying `base` still yields exactly {0}; in
general an extension's application factors through the unchanged application
of the shared base. -/
theorem chain_sharing_isolation :
    applyChain ((DynBundle.new [(0, 1)]).insert [(1, 1)]) [] = [(0, 1), (1, 1)] ∧
    applyChain ((DynBundle.new [(0, 1)]).insert [(2, 1)]) [] = [(0, 1), (2, 1)] ∧
    applyChain (DynBundle.new [(0, 1)]) [] = [(0, 1)] ∧
    ∀ (base : DynBundle) (cs : List (Nat × Nat)) (m : CompMap),
      applyChain (base.insert cs) m = applyOp (.ins cs) (applyChain base m) := by
  refine ⟨?_, ?_, ?_, fun base cs m => rfl⟩ <;>
    simp [DynBundle.new, DynBundle.insert, applyChain, applyOp, insertComp]

/-- C9: for `other = remove(root({2 ↦ 1}), 2)` (insert C then remove C) and
`chain = insert(root({0 ↦ 1}), {1 ↦ 1})` (insert A then insert B), applying
`chain.append(other)` to a fresh entity yields exactly the components
{A = 0, B = 1} and no C = 2. -/
theorem append_cancelled_insert_remove :
    applyChain (((DynBundle.new [(0, 1)]).insert [(1, 1)]).append
        ((DynBundle.new [(2, 1)]).remove [2])) [] = [(0, 1), (1, 1)] ∧
    ∀ v, (2, v) ∉ applyChain (((DynBundle.new [(0, 1)]).insert [(1, 1)]).append
        ((DynBundle.new [(2, 1)]).remove [2])) [] := by
  constructor
  · simp [DynBundle.new, DynBundle.insert, DynBundle.remove, DynBundle.append,
      applyChain, applyOp, insertComp]
  · intro v
    simp [DynBundle.new, DynBundle.insert, DynBundle.remove, DynBundle.append,
      applyChain, applyOp, insertComp]

/-! ## The relationship mirror (`Target` / `TargetBy` hooks, deferred queue)

State-transition model of the hook protocol of `lib.rs` lines 198–302, in a
world where every referenced entity exists (component insert / replace /
remove only — no despawn, so the unchecked `world.entity(target)` lookups
succeed; the panic behaviour on a missing referent is modelled separately
below).  Bevy's hook semantics for `insert` of an already-present component:
`on_replace` fires first with the old value still readable, then the value is
written, then `on_insert` fires; `remove` of a present component fires
`on_replace`; `remove` of an absent component fires nothing.  Hooks run
synchronously and may only enqueue commands; the flush drains the queue FIFO,
commands enqueued during the drain going to the back. -/

/-- Pointwise update of an entity-indexed map. -/
def upd (f : Nat → Option Nat) (k : Nat) (v : Option Nat) : Nat → Option Nat :=
  fun n => if n = k then v else f n

/-- The four deferred commands the hooks enqueue:
`insTB t x` = "insert `TargetBy(x)` on t" (from the `Target` on_insert hook),
`remTB t` = "remove `TargetBy` from t" (from the `Target` on_replace hook),
`insT x t` = "insert `Target(t)` on x" (from the `TargetBy` on_insert hook),
`remT x` = "remove `Target` from x" (from the `TargetBy` on_replace hook). -/
inductive Cmd where
  | insT (x t : Nat)
  | remT (x : Nat)
  | insTB (t x : Nat)
  | remTB (t : Nat)
deriving DecidableEq

/-- World state for the relationship mirror: the `Target` and `TargetBy`
component of each entity, and the deferred command queue. -/
structure MirrorState where
  target : Nat → Option Nat
  targetBy : Nat → Option Nat
  queue : List Cmd

/-- Insert `Target(t)` on entity `x`, running the `Target` hooks of the
source: `on_replace` (fires only if a `Target` was present; reads the old
value `tOld`; enqueues "remove `TargetBy` from tOld" unconditionally), then
the write, then `on_insert` (reads the committed value `t`; if `t`'s current
`TargetBy` is not `x`, enqueues "insert `TargetBy(x)` on t"). -/
def insertTarget (x t : Nat) (s : MirrorState) : MirrorState :=
  let s1 : MirrorState :=
    match s.target x with
    | some tOld => { s with queue := s.queue ++ [Cmd.remTB tOld] }
    | none => s
  let s2 : MirrorState := { s1 with target := upd s1.target x (some t) }
  if s2.targetBy t = some x then s2
  else { s2 with queue := s2.queue ++ [Cmd.insTB t x] }

/-- Remove `Target` from entity `x`: if present, `on_replace` fires (reads
the old value, enqueues "remove `TargetBy` from it") and the component is
removed; if absent, nothing happens. -/
def removeTarget (x : Nat) (s : MirrorState) : MirrorState :=
  match s.target x with
  | some tOld =>
      { s with target := upd s.target x none, queue := s.queue ++ [Cmd.remTB tOld] }
  | none => s

/-- Insert `TargetBy(x)` on entity `t`, running the `TargetBy` hooks of the
source (exact mirror of `insertTarget`). -/
def insertTargetBy (t x : Nat) (s : MirrorState) : MirrorState :=
  let s1 : MirrorState :=
    match s.targetBy t with
    | some xOld => { s with queue := s.queue ++ [Cmd.remT xOld] }
    | none => s
  let s2 : MirrorState := { s1 with targetBy := upd s1.targetBy t (some x) }
  if s2.target x = some t then s2
  else { s2 with queue := s2.queue ++ [Cmd.insT x t] }

/-- Remove `TargetBy` from entity `t` (exact mirror of `removeTarget`). -/
def removeTargetBy (t : Nat) (s : MirrorState) : MirrorState :=
  match s.targetBy t with
  | some xOld =>
      { s with targetBy := upd s.targetBy t none, queue := s.queue ++ [Cmd.remT xOld] }
  | none => s

/-- Execute one deferred command (the commands are ordinary inserts/removes,
so they run the same hooks). -/
def runCmd (c : Cmd) (s : MirrorState) : MirrorState :=
  match c with
  | .insT x t => insertTarget x t s
  | .remT x => removeTarget x s
  | .insTB t x => insertTargetBy t x s
  | .remTB t => removeTargetBy t s

/-- One step of the FIFO flush: pop the front command and execute it; the
commands its hooks enqueue go to the back of the remaining queue. -/
def stepCmd (s : MirrorState) : MirrorState :=
  match s.queue with
  | [] => s
  | c :: rest => runCmd c { s with queue := rest }

/-- The empty initial world: no components, empty queue. -/
def initMirror : MirrorState := ⟨fun _ => none, fun _ => none, []⟩

/-- States reachable by any sequence of user-level `Target`/`TargetBy`
inserts (replace = insert on an existing component), removes, and flush
steps, in any interleaving. -/
inductive Reachable : MirrorState → Prop where
  | init : Reachable initMirror
  | opInsT (x t : Nat) {s : MirrorState} : Reachable s → Reachable (insertTarget x t s)
  | opRemT (x : Nat) {s : MirrorState} : Reachable s → Reachable (removeTarget x s)
  | opInsTB (t x : Nat) {s : MirrorState} : Reachable s → Reachable (insertTargetBy t x s)
  | opRemTB (t : Nat) {s : MirrorState} : Reachable s → Reachable (removeTargetBy t s)
  | flushStep {s : MirrorState} : Reachable s → Reachable (stepCmd s)

/-- A pending command able to repair the discrepancy "x targets t but t is
not targeted-by x". -/
def Covered1 (s : MirrorState) (x t : Nat) : Prop :=
  Cmd.insTB t x ∈ s.queue ∨ Cmd.remT x ∈ s.queue

/-- A pending command able to repair the discrepancy "t is targeted-by x but
x does not target t". -/
def Covered2 (s : MirrorState) (t x : Nat) : Prop :=
  Cmd.insT x t ∈ s.queue ∨ Cmd.remTB t ∈ s.queue

/-- The inductive invariant: every direction of the mirror that is out of
sync has a repairing command pending in the queue. -/
def MirrorInv (s : MirrorState) : Prop :=
  ∀ x t : Nat,
    (s.target x = some t → s.targetBy t ≠ some x → Covered1 s x t) ∧
    (s.targetBy t = some x → s.target x ≠ some t → Covered2 s t x)

/-- `Inv` weakened by one distinguished command `c` (the command just popped
from the queue): each discrepancy is covered by the remaining queue or was
covered by `c` itself. -/
def MirrorInvMinus (c : Cmd) (s : MirrorState) : Prop :=
  ∀ x t : Nat,
    (s.target x = some t → s.targetBy t ≠ some x →
      Covered1 s x t ∨ c = Cmd.insTB t x ∨ c = Cmd.remT x) ∧
    (s.targetBy t = some x → s.target x ≠ some t →
      Covered2 s t x ∨ c = Cmd.insT x t ∨ c = Cmd.remTB t)

/-- What `insertTarget` does to each field: the `Target` map is updated at
`x`, `TargetBy` is untouched, the queue only grows, growing by the mirror
insert exactly when `t` was not already targeted-by `x`, and by the mirror
remove of the old value exactly when a `Target` was replaced. -/
theorem insertTarget_spec (x t : Nat) (s : MirrorState) :
    (insertTarget x t s).target = upd s.target x (some t) ∧
    (insertTarget x t s).targetBy = s.targetBy ∧
    (∀ c, c ∈ s.queue → c ∈ (insertTarget x t s).queue) ∧
    (s.targetBy t ≠ some x → Cmd.insTB t x ∈ (insertTarget x t s).queue) ∧
    (∀ tOld, s.target x = some tOld → Cmd.remTB tOld ∈ (insertTarget x t s).queue) := by
  unfold insertTarget
  rcases h : s.target x with _ | tOld <;>
    by_cases hb : s.targetBy t = some x <;>
      simp [h, hb] <;>
        exact fun c hc => Or.inl hc

/-- What `removeTarget` does: no-op when absent; otherwise the `Target` map
is cleared at `x`, `TargetBy` untouched, the queue grows by the mirror
remove of the old value. -/
theorem removeTarget_spec (x : Nat) (s : MirrorState) :
    (s.target x = none → removeTarget x s = s) ∧
    (∀ tOld, s.target x = some tOld →
      (removeTarget x s).target = upd s.target x none ∧
      (removeTarget x s).targetBy = s.targetBy ∧
      (∀ c, c ∈ s.queue → c ∈ (removeTarget x s).queue) ∧
      Cmd.remTB tOld ∈ (removeTarget x s).queue) := by
  unfold removeTarget
  rcases h : s.target x with _ | tOld <;> simp [h] <;>
    exact fun c hc => Or.inl hc

/-- Mirror image of `insertTarget_spec` for the `TargetBy` hooks. -/
theorem insertTargetBy_spec (t x : Nat) (s : MirrorState) :
    (insertTargetBy t x s).targetBy = upd s.targetBy t (some x) ∧
    (insertTargetBy t x s).target = s.target ∧
    (∀ c, c ∈ s.queue → c ∈ (insertTargetBy t x s).queue) ∧
    (s.target x ≠ some t → Cmd.insT x t ∈ (insertTargetBy t x s).queue) ∧
    (∀ xOld, s.targetBy t = some xOld → Cmd.remT xOld ∈ (insertTargetBy t x s).queue) := by
  unfold insertTargetBy
  rcases h : s.targetBy t with _ | xOld <;>
    by_cases hb : s.target x = some t <;>
      simp [h, hb] <;>
        exact fun c hc => Or.inl hc

/-- Mirror image of `removeTarget_spec` for the `TargetBy` hooks. -/
theorem removeTargetBy_spec (t : Nat) (s : MirrorState) :
    (s.targetBy t = none → removeTargetBy t s = s) ∧
    (∀ xOld, s.targetBy t = some xOld →
      (removeTargetBy t s).targetBy = upd s.targetBy t none ∧
      (removeTargetBy t s).target = s.target ∧
      (∀ c, c ∈ s.queue → c ∈ (removeTargetBy t s).queue) ∧
      Cmd.remT xOld ∈ (removeTargetBy t s).queue) := by
  unfold removeTargetBy
  rcases h : s.targetBy t with _ | xOld <;> simp [h] <;>
    exact fun c hc => Or.inl hc

theorem covered1_mono {s r : MirrorState} (hm : ∀ c, c ∈ s.queue → c ∈ r.queue)
    {x t : Nat} (h : Covered1 s x t) : Covered1 r x t :=
  h.imp (hm _) (hm _)

theorem covered2_mono {s r : MirrorState} (hm : ∀ c, c ∈ s.queue → c ∈ r.queue)
    {t x : Nat} (h : Covered2 s t x) : Covered2 r t x :=
  h.imp (hm _) (hm _)

/-- The heart of C1: running any command (and user inserts/removes execute
the same hook code) from a state whose discrepancies are each covered by the
queue or by the executed command itself yields a state where every
discrepancy is covered by the queue. -/
theorem runCmd_preserves (c : Cmd) (s : MirrorState) (h : MirrorInvMinus c s) :
    MirrorInv (runCmd c s) := by
  cases c with
  | insT x0 t0 =>
    simp only [runCmd]
    obtain ⟨hTg, hTB, hmono, hins, hrep⟩ := insertTarget_spec x0 t0 s
    intro x t
    constructor
    · intro h1 h2
      rw [hTg] at h1
      rw [hTB] at h2
      by_cases hx : x = x0
      · subst hx
        simp only [upd, if_pos rfl] at h1
        have ht : t0 = t := Option.some.inj h1
        subst ht
        exact Or.inl (hins h2)
      · have h1' : s.target x = some t := by simpa [upd, hx] using h1
        rcases (h x t).1 h1' h2 with hc | hc | hc
        · exact covered1_mono hmono hc
        · exact Cmd.noConfusion hc
        · exact Cmd.noConfusion hc
    · intro h2 h1
      rw [hTB] at h2
      rw [hTg] at h1
      by_cases hx : x = x0
      · subst hx
        have hne : t ≠ t0 := by
          intro he
          subst he
          exact h1 (by simp [upd])
        rcases hOld : s.target x with _ | tOld
        · rcases (h x t).2 h2 (by rw [hOld]; exact fun he => Option.noConfusion he)
            with hc | hc | hc
          · exact covered2_mono hmono hc
          · injection hc with h3 h4
            exact absurd h4.symm hne
          · exact Cmd.noConfusion hc
        · by_cases ht : t = tOld
          · subst ht
            exact Or.inr (hrep t hOld)
          · have hneq : s.target x ≠ some t := by
              rw [hOld]
              intro he
              exact ht (Option.some.inj he).symm
            rcases (h x t).2 h2 hneq with hc | hc | hc
            · exact covered2_mono hmono hc
            · injection hc with h3 h4
              exact absurd h4.symm hne
            · exact Cmd.noConfusion hc
      · have h1' : s.target x ≠ some t := by simpa [upd, hx] using h1
        rcases (h x t).2 h2 h1' with hc | hc | hc
        · exact covered2_mono hmono hc
        · injection hc with h3 h4
          exact absurd h3.symm hx
        · exact Cmd.noConfusion hc
  | remT x0 =>
    simp only [runCmd]
    obtain ⟨hnone, hsome⟩ := removeTarget_spec x0 s
    rcases hOld : s.target x0 with _ | tOld
    · rw [hnone hOld]
      intro x t
      constructor
      · intro h1 h2
        rcases (h x t).1 h1 h2 with hc | hc | hc
        · exact hc
        · exact Cmd.noConfusion hc
        · injection hc with h3
          rw [← h3, hOld] at h1
          exact Option.noConfusion h1
      · intro h2 h1
        rcases (h x t).2 h2 h1 with hc | hc | hc
        · exact hc
        · exact Cmd.noConfusion hc
        · exact Cmd.noConfusion hc
    · obtain ⟨hTg, hTB, hmono, hrep⟩ := hsome tOld hOld
      intro x t
      constructor
      · intro h1 h2
        rw [hTg] at h1
        rw [hTB] at h2
        by_cases hx : x = x0
        · subst hx
          simp [upd] at h1
        · have h1' : s.target x = some t := by simpa [upd, hx] using h1
          rcases (h x t).1 h1' h2 with hc | hc | hc
          · exact covered1_mono hmono hc
          · exact Cmd.noConfusion hc
          · injection hc with h3
            exact absurd h3.symm hx
      · intro h2 h1
        rw [hTB] at h2
        rw [hTg] at h1
        by_cases hx : x = x0
        · subst hx
          by_cases ht : t = tOld
          · subst ht
            exact Or.inr hrep
          · have hne : s.target x ≠ some t := by
              rw [hOld]
              intro he
              exact ht (Option.some.inj he).symm
            rcases (h x t).2 h2 hne with hc | hc | hc
            · exact covered2_mono hmono hc
            · exact Cmd.noConfusion hc
            · exact Cmd.noConfusion hc
        · have h1' : s.target x ≠ some t := by simpa [upd, hx] using h1
          rcases (h x t).2 h2 h1' with hc | hc | hc
          · exact covered2_mono hmono hc
          · exact Cmd.noConfusion hc
          · exact Cmd.noConfusion hc
  | insTB t0 x0 =>
    simp only [runCmd]
    obtain ⟨hTBg, hTg, hmono, hins, hrep⟩ := insertTargetBy_spec t0 x0 s
    intro x t
    constructor
    · intro h1 h2
      rw [hTg] at h1
      rw [hTBg] at h2
      by_cases ht : t = t0
      · subst ht
        have hxne : x0 ≠ x := by
          intro he
          subst he
          exact h2 (by simp [upd])
        rcases hOldB : s.targetBy t with _ | xOld
        · rcases (h x t).1 h1 (by rw [hOldB]; exact fun he => Option.noConfusion he)
            with hc | hc | hc
          · exact covered1_mono hmono hc
          · injection hc with h3 h4
            exact absurd h4 hxne
          · exact Cmd.noConfusion hc
        · by_cases hxOld : xOld = x
          · subst hxOld
            exact Or.inr (hrep xOld hOldB)
          · have hneq : s.targetBy t ≠ some x := by
              rw [hOldB]
              intro he
              exact hxOld (Option.some.inj he)
            rcases (h x t).1 h1 hneq with hc | hc | hc
            · exact covered1_mono hmono hc
            · injection hc with h3 h4
              exact absurd h4 hxne
            · exact Cmd.noConfusion hc
      · have h2' : s.targetBy t ≠ some x := by simpa [upd, ht] using h2
        rcases (h x t).1 h1 h2' with hc | hc | hc
        · exact covered1_mono hmono hc
        · injection hc with h3 h4
          exact absurd h3.symm ht
        · exact Cmd.noConfusion hc
    · intro h2 h1
      rw [hTBg] at h2
      rw [hTg] at h1
      by_cases ht : t = t0
      · subst ht
        simp only [upd, if_pos rfl] at h2
        have hx : x0 = x := Option.some.inj h2
        subst hx
        exact Or.inl (hins h1)
      · have h2' : s.targetBy t = some x := by simpa [upd, ht] using h2
        rcases (h x t).2 h2' h1 with hc | hc | hc
        · exact covered2_mono hmono hc
        · exact Cmd.noConfusion hc
        · exact Cmd.noConfusion hc
  | remTB t0 =>
    simp only [runCmd]
    obtain ⟨hnone, hsome⟩ := removeTargetBy_spec t0 s
    rcases hOldB : s.targetBy t0 with _ | xOld
    · rw [hnone hOldB]
      intro x t
      constructor
      · intro h1 h2
        rcases (h x t).1 h1 h2 with hc | hc | hc
        · exact hc
        · exact Cmd.noConfusion hc
        · exact Cmd.noConfusion hc
      · intro h2 h1
        rcases (h x t).2 h2 h1 with hc | hc | hc
        · exact hc
        · exact Cmd.noConfusion hc
        · injection hc with h3
          rw [← h3, hOldB] at h2
          exact Option.noConfusion h2
    · obtain ⟨hTBg, hTg, hmono, hrep⟩ := hsome xOld hOldB
      intro x t
      constructor
      · intro h1 h2
        rw [hTg] at h1
        rw [hTBg] at h2
        by_cases ht : t = t0
        · subst ht
          by_cases hx : x = xOld
          · subst hx
            exact Or.inr hrep
          · have hne : s.targetBy t ≠ some x := by
              rw [hOldB]
              intro he
              exact hx (Option.some.inj he).symm
            rcases (h x t).1 h1 hne with hc | hc | hc
            · exact covered1_mono hmono hc
            · exact Cmd.noConfusion hc
            · exact Cmd.noConfusion hc
        · have h2' : s.targetBy t ≠ some x := by simpa [upd, ht] using h2
          rcases (h x t).1 h1 h2' with hc | hc | hc
          · exact covered1_mono hmono hc
          · exact Cmd.noConfusion hc
          · exact Cmd.noConfusion hc
      · intro h2 h1
        rw [hTBg] at h2
        rw [hTg] at h1
        by_cases ht : t = t0
        · subst ht
          simp [upd] at h2
        · have h2' : s.targetBy t = some x := by simpa [upd, ht] using h2
          rcases (h x t).2 h2' h1 with hc | hc | hc
          · exact covered2_mono hmono hc
          · exact Cmd.noConfusion hc
          · injection hc with h3
            exact absurd h3.symm ht

theorem invMinus_of_inv (c : Cmd) {s : MirrorState} (h : MirrorInv s) :
    MirrorInvMinus c s :=
  fun x t =>
    ⟨fun h1 h2 => Or.inl ((h x t).1 h1 h2), fun h1 h2 => Or.inl ((h x t).2 h1 h2)⟩

/-- Every reachable state satisfies the coverage invariant. -/
theorem reachable_inv {s : MirrorState} (h : Reachable s) : MirrorInv s := by
  induction h with
  | init =>
    intro x t
    constructor
    · intro h1 _
      exact absurd h1 (by simp [initMirror])
    · intro h1 _
      exact absurd h1 (by simp [initMirror])
  | opInsT x t _ ih => exact runCmd_preserves (Cmd.insT x t) _ (invMinus_of_inv _ ih)
  | opRemT x _ ih => exact runCmd_preserves (Cmd.remT x) _ (invMinus_of_inv _ ih)
  | opInsTB t x _ ih => exact runCmd_preserves (Cmd.insTB t x) _ (invMinus_of_inv _ ih)
  | opRemTB t _ ih => exact runCmd_preserves (Cmd.remTB t) _ (invMinus_of_inv _ ih)
  | @flushStep s _ ih =>
    cases hq : s.queue with
    | nil => simpa [stepCmd, hq] using ih
    | cons c rest =>
      have hm : MirrorInvMinus c { s with queue := rest } := by
        intro x t
        refine ⟨fun h1 h2 => ?_, fun h1 h2 => ?_⟩
        · rcases (ih x t).1 h1 h2 with hc | hc
          · rw [hq] at hc
            rcases List.mem_cons.mp hc with he | hm2
            · exact Or.inr (Or.inl he.symm)
            · exact Or.inl (Or.inl hm2)
          · rw [hq] at hc
            rcases List.mem_cons.mp hc with he | hm2
            · exact Or.inr (Or.inr he.symm)
            · exact Or.inl (Or.inr hm2)
        · rcases (ih x t).2 h1 h2 with hc | hc
          · rw [hq] at hc
            rcases List.mem_cons.mp hc with he | hm2
            · exact Or.inr (Or.inl he.symm)
            · exact Or.inl (Or.inl hm2)
          · rw [hq] at hc
            rcases List.mem_cons.mp hc with he | hm2
            · exact Or.inr (Or.inr he.symm)
            · exact Or.inl (Or.inr hm2)
      have hr := runCmd_preserves c { s with queue := rest } hm
      simpa [stepCmd, hq] using hr

/-- C1: after any sequence of `Target`/`TargetBy` insert, replace and remove
operations on any entities, in any state in which the deferred command queue
has been fully drained (flush complete, no pending relationship commands),
the bidirectional invariant holds: X holds `Target = Y` iff Y holds
`TargetBy = X`. -/
theorem mirror_steady_state_invariant (s : MirrorState) (h : Reachable s)
    (hq : s.queue = []) (x y : Nat) :
    s.target x = some y ↔ s.targetBy y = some x := by
  have hi := reachable_inv h
  constructor
  · intro h1
    by_contra h2
    have hc := (hi x y).1 h1 h2
    simp [Covered1, hq] at hc
  · intro h1
    by_contra h2
    have hc := (hi x y).2 h1 h2
    simp [Covered2, hq] at hc

/-- Witness for C1: inserting `Target(1)` on entity 0 into the empty world
and executing the single queued mirror command reaches a drained state, where
the theorem applies: entity 0 targets 1 iff 1 is targeted-by 0 (and indeed
both sides hold). -/
theorem mirror_steady_state_invariant_witness :
    ((stepCmd (insertTarget 0 1 initMirror)).target 0 = some 1 ↔
      (stepCmd (insertTarget 0 1 initMirror)).targetBy 1 = some 0) ∧
    (stepCmd (insertTarget 0 1 initMirror)).target 0 = some 1 :=
  ⟨mirror_steady_state_invariant _
      (Reachable.flushStep (Reachable.opInsT 0 1 Reachable.init)) rfl 0 1,
    rfl⟩

/-- C4 at the failing input: inserting `Target(1)` on entity 0 and flushing
reaches the consistent mirrored pair (0 holds `Target = 1`, 1 holds
`TargetBy = 0`, queue empty); re-inserting the identical `Target(1)` on 0
then enqueues the deferred command "remove `TargetBy` from 1" (the
`on_replace` hook fires on the replace and enqueues unconditionally), and
draining the queue removes both `TargetBy` from 1 and `Target` from 0 —
against the claim that no deferred mirror command is enqueued and that the
flush adds or removes nothing. -/
theorem reinsert_identical_target_enqueues_removal :
    (stepCmd (insertTarget 0 1 initMirror)).target 0 = some 1 ∧
    (stepCmd (insertTarget 0 1 initMirror)).targetBy 1 = some 0 ∧
    (stepCmd (insertTarget 0 1 initMirror)).queue = [] ∧
    (insertTarget 0 1 (stepCmd (insertTarget 0 1 initMirror))).queue = [Cmd.remTB 1] ∧
    (stepCmd (stepCmd (stepCmd
        (insertTarget 0 1 (stepCmd (insertTarget 0 1 initMirror)))))).target 0 = none ∧
    (stepCmd (stepCmd (stepCmd
        (insertTarget 0 1 (stepCmd (insertTarget 0 1 initMirror)))))).targetBy 1 = none ∧
    (stepCmd (stepCmd (stepCmd
        (insertTarget 0 1 (stepCmd (insertTarget 0 1 initMirror)))))).queue = [] :=
  ⟨rfl, rfl, rfl, rfl, rfl, rfl, rfl⟩

/-! ## Deferred one-shot commands: `DynBundleCommand` and `ChildrenCommand`

World model with entity aliveness and id allocation.  A deferred command
returns `none` to model a panic; the `dbg` flag models `debug_assertions`.
The `queue` lists the entities with a pending `DynBundleCommand` (enqueued by
the `DynBundle` `on_add` hook when a spawn attaches the marker). -/

structure EWorld where
  nextId : Nat
  alive : Nat → Bool
  parentOf : Nat → Option Nat
  childrenMarker : Nat → Option (List DynBundle)
  dynMarker : Nat → Option DynBundle
  comps : Nat → CompMap
  queue : List Nat

/-- `DynBundleCommand::apply`: look up the entity (missing ⇒ panic with
diagnostics, silent return without), take the `DynBundle` marker (absent ⇒
likewise), then apply the chain to the entity. -/
def dynBundleCommand (dbg : Bool) (e : Nat) (w : EWorld) : Option EWorld :=
  if w.alive e = true then
    match w.dynMarker e with
    | some b =>
        some { w with
          dynMarker := fun n => if n = e then none else w.dynMarker n,
          comps := fun n => if n = e then applyChain b (w.comps n) else w.comps n }
    | none => if dbg then none else some w
  else if dbg then none else some w

/-- One `builder.spawn(bundle)` inside `with_children`: allocate the next
entity id as a child of `p` carrying the `DynBundle` marker, whose `on_add`
hook enqueues a `DynBundleCommand` for it. -/
def spawnChild (p : Nat) (b : DynBundle) (w : EWorld) : EWorld :=
  { nextId := w.nextId + 1,
    alive := fun n => if n = w.nextId then true else w.alive n,
    parentOf := fun n => if n = w.nextId then some p else w.parentOf n,
    childrenMarker := w.childrenMarker,
    dynMarker := fun n => if n = w.nextId then some b else w.dynMarker n,
    comps := w.comps,
    queue := w.queue ++ [w.nextId] }

/-- The spawning loop of `ChildrenCommand`: one child per chain, in sequence
order. -/
def spawnFold (p : Nat) (bs : List DynBundle) (w : EWorld) : EWorld :=
  bs.foldl (fun w b => spawnChild p b w) w

/-- `ChildrenCommand::apply`: look up the parent (missing ⇒ stale), take the
`Children` marker (absent ⇒ stale), then spawn one child per chain in order. -/
def childrenCommand (dbg : Bool) (p : Nat) (w : EWorld) : Option EWorld :=
  if w.alive p = true then
    match w.childrenMarker p with
    | some bs =>
        some (spawnFold p bs
          { w with childrenMarker := fun n => if n = p then none else w.childrenMarker n })
    | none => if dbg then none else some w
  else if dbg then none else some w

/-- Drain the listed pending `DynBundleCommand`s in FIFO order; a panic
aborts the flush. -/
def drainAux (dbg : Bool) : List Nat → EWorld → Option EWorld
  | [], w => some w
  | e :: rest, w =>
    match dynBundleCommand dbg e w with
    | some w2 => drainAux dbg rest w2
    | none => none

/-- Flush the world's pending `DynBundleCommand` queue. -/
def drainQueue (dbg : Bool) (w : EWorld) : Option EWorld :=
  drainAux dbg w.queue { w with queue := [] }

/-- C7: when the deferred `DynBundleCommand` executes and its entity is
missing, or the entity exists but no longer carries the `DynBundle` marker,
it panics under `debug_assertions` and returns with no effect on the world
without them; when both are present, the marker is taken off the entity and
the chain is applied to it (all other entities untouched). -/
theorem dynbundle_command_stale_policy (dbg : Bool) (e : Nat) (w : EWorld) :
    (w.alive e = false →
      dynBundleCommand true e w = none ∧ dynBundleCommand false e w = some w) ∧
    (w.alive e = true → w.dynMarker e = none →
      dynBundleCommand true e w = none ∧ dynBundleCommand false e w = some w) ∧
    (∀ b, w.alive e = true → w.dynMarker e = some b →
      ∃ w2, dynBundleCommand dbg e w = some w2 ∧
        w2.dynMarker e = none ∧
        w2.comps e = applyChain b (w.comps e) ∧
        w2.alive = w.alive ∧ w2.parentOf = w.parentOf ∧ w2.nextId = w.nextId ∧
        w2.childrenMarker = w.childrenMarker ∧ w2.queue = w.queue ∧
        (∀ n, n ≠ e → w2.dynMarker n = w.dynMarker n ∧ w2.comps n = w.comps n)) := by
  refine ⟨fun ha => ?_, fun ha hm => ?_, fun b ha hm => ?_⟩
  · constructor <;> simp [dynBundleCommand, ha]
  · constructor <;> simp [dynBundleCommand, ha, hm]
  · refine ⟨{ w with
        dynMarker := fun n => if n = e then none else w.dynMarker n,
        comps := fun n => if n = e then applyChain b (w.comps n) else w.comps n },
      by simp [dynBundleCommand, ha, hm], by simp, by simp, rfl, rfl, rfl, rfl, rfl, ?_⟩
    intro n hn
    exact ⟨by simp [hn], by simp [hn]⟩

/-- A concrete world for the C7 witness: entities 0, 1, 2 alive, entity 0
carrying a one-insert chain as its `DynBundle` marker. -/
def W7 : EWorld :=
  ⟨3, fun n => decide (n < 3), fun _ => none, fun _ => none,
    fun n => if n = 0 then some (DynBundle.new [(0, 1)]) else none,
    fun _ => [], []⟩

/-- Witness for C7: on `W7`, the command for dead entity 5 panics with
diagnostics and silently no-ops without; the command for entity 0 succeeds
and leaves it with exactly its chain's component. -/
theorem dynbundle_command_stale_policy_witness :
    (dynBundleCommand true 5 W7 = none ∧ dynBundleCommand false 5 W7 = some W7) ∧
    ∃ w2, dynBundleCommand true 0 W7 = some w2 ∧
      w2.dynMarker 0 = none ∧ w2.comps 0 = [(0, 1)] := by
  refine ⟨(dynbundle_command_stale_policy true 5 W7).1 rfl, ?_⟩
  obtain ⟨w2, h1, h2, h3, -⟩ :=
    (dynbundle_command_stale_policy true 0 W7).2.2 (DynBundle.new [(0, 1)]) rfl rfl
  exact ⟨w2, h1, h2, by rw [h3]; rfl⟩

/-- The consecutive entity ids `[s, s+1, ..., s+n-1]` allocated by `n`
spawns. -/
def idsFrom (s n : Nat) : List Nat :=
  match n with
  | 0 => []
  | n + 1 => s :: idsFrom (s + 1) n

theorem mem_idsFrom {e : Nat} : ∀ {s n : Nat}, e ∈ idsFrom s n ↔ s ≤ e ∧ e < s + n := by
  intro s n
  induction n generalizing s with
  | zero => simp [idsFrom]
  | succ n ih =>
    simp only [idsFrom, List.mem_cons, ih]
    omega

/-- Effect of the spawning loop: `nextId` advances by the number of chains,
components and the `Children` markers are untouched, the ids of the new
children are appended to the queue in order, entities outside the allocated
range keep all their fields, and the `i`-th allocated entity is alive, a
child of `p`, and carries the `i`-th chain as its `DynBundle` marker. -/
theorem spawnFold_spec (p : Nat) (bs : List DynBundle) (w : EWorld) :
    (spawnFold p bs w).nextId = w.nextId + bs.length ∧
    (spawnFold p bs w).comps = w.comps ∧
    (spawnFold p bs w).childrenMarker = w.childrenMarker ∧
    (spawnFold p bs w).queue = w.queue ++ idsFrom w.nextId bs.length ∧
    (∀ n, n < w.nextId ∨ w.nextId + bs.length ≤ n →
      (spawnFold p bs w).alive n = w.alive n ∧
      (spawnFold p bs w).dynMarker n = w.dynMarker n ∧
      (spawnFold p bs w).parentOf n = w.parentOf n) ∧
    (∀ i (hi : i < bs.length),
      (spawnFold p bs w).alive (w.nextId + i) = true ∧
      (spawnFold p bs w).dynMarker (w.nextId + i) = some (bs.get ⟨i, hi⟩) ∧
      (spawnFold p bs w).parentOf (w.nextId + i) = some p) := by
  induction bs generalizing w with
  | nil =>
    refine ⟨by simp [spawnFold], rfl, rfl, by simp [spawnFold, idsFrom], ?_, ?_⟩
    · intro n _
      exact ⟨rfl, rfl, rfl⟩
    · intro i hi
      exact absurd hi (by simp)
  | cons b rest ih =>
    have hstep : spawnFold p (b :: rest) w = spawnFold p rest (spawnChild p b w) := rfl
    obtain ⟨ihN, ihC, ihM, ihQ, ihOut, ihIn⟩ := ih (spawnChild p b w)
    rw [hstep]
    have hN1 : (spawnChild p b w).nextId = w.nextId + 1 := rfl
    refine ⟨?_, ?_, ?_, ?_, ?_, ?_⟩
    · rw [ihN, hN1, List.length_cons]
      omega
    · rw [ihC]
      rfl
    · rw [ihM]
      rfl
    · rw [ihQ, hN1]
      show (w.queue ++ [w.nextId]) ++ idsFrom (w.nextId + 1) rest.length = _
      rw [List.append_assoc]
      rfl
    · intro n hn
      have hout : n < (spawnChild p b w).nextId ∨
          (spawnChild p b w).nextId + rest.length ≤ n := by
        rw [hN1]
        rcases hn with hn | hn
        · exact Or.inl (by omega)
        · right
          simp only [List.length_cons] at hn
          omega
      obtain ⟨hA, hD, hP⟩ := ihOut n hout
      have hne : n ≠ w.nextId := by
        rcases hn with hn | hn
        · omega
        · simp only [List.length_cons] at hn
          omega
      refine ⟨?_, ?_, ?_⟩
      · rw [hA]
        simp [spawnChild, hne]
      · rw [hD]
        simp [spawnChild, hne]
      · rw [hP]
        simp [spawnChild, hne]
    · intro i hi
      cases i with
      | zero =>
        have hout : w.nextId < (spawnChild p b w).nextId ∨
            (spawnChild p b w).nextId + rest.length ≤ w.nextId := Or.inl (by rw [hN1]; omega)
        obtain ⟨hA, hD, hP⟩ := ihOut w.nextId hout
        refine ⟨?_, ?_, ?_⟩
        · rw [Nat.add_zero, hA]
          simp [spawnChild]
        · rw [Nat.add_zero, hD]
          simp [spawnChild, List.get]
        · rw [Nat.add_zero, hP]
          simp [spawnChild]
      | succ j =>
        have hj : j < rest.length := by
          simp only [List.length_cons] at hi
          omega
        obtain ⟨hA, hD, hP⟩ := ihIn j hj
        have harith : w.nextId + (j + 1) = (spawnChild p b w).nextId + j := by
          rw [hN1]
          omega
        rw [harith]
        exact ⟨hA, by rw [hD]; rfl, hP⟩

/-- Draining the pending `DynBundleCommand`s of a block of consecutive
entities that are alive and carry markers `f e`: each gets its marker taken
and its chain applied; every other entity and every other field of the world
is untouched, and no command panics. -/
theorem drain_idsFrom (dbg : Bool) (f : Nat → DynBundle) :
    ∀ (n s0 : Nat) (w : EWorld),
      (∀ e, s0 ≤ e → e < s0 + n → w.alive e = true ∧ w.dynMarker e = some (f e)) →
      ∃ wf, drainAux dbg (idsFrom s0 n) w = some wf ∧
        wf.nextId = w.nextId ∧ wf.alive = w.alive ∧ wf.parentOf = w.parentOf ∧
        wf.childrenMarker = w.childrenMarker ∧ wf.queue = w.queue ∧
        (∀ e, s0 ≤ e → e < s0 + n →
          wf.dynMarker e = none ∧ wf.comps e = applyChain (f e) (w.comps e)) ∧
        (∀ e, e < s0 ∨ s0 + n ≤ e →
          wf.dynMarker e = w.dynMarker e ∧ wf.comps e = w.comps e) := by
  intro n
  induction n with
  | zero =>
    intro s0 w _
    refine ⟨w, rfl, rfl, rfl, rfl, rfl, rfl, ?_, ?_⟩
    · intro e he1 he2
      omega
    · intro e _
      exact ⟨rfl, rfl⟩
  | succ n ih =>
    intro s0 w h
    obtain ⟨ha, hb⟩ := h s0 (Nat.le_refl s0) (by omega)
    obtain ⟨wf, hdrain, hN, hA, hP, hM, hQ, hin, hout⟩ :=
      ih (s0 + 1)
        { w with
          dynMarker := fun m => if m = s0 then none else w.dynMarker m,
          comps := fun m => if m = s0 then applyChain (f s0) (w.comps m) else w.comps m }
        (by
          intro e he1 he2
          obtain ⟨h1, h2⟩ := h e (by omega) (by omega)
          have hne : e ≠ s0 := by omega
          exact ⟨h1, by simp [hne, h2]⟩)
    refine ⟨wf, ?_, hN, hA, hP, hM, hQ, ?_, ?_⟩
    · show drainAux dbg (s0 :: idsFrom (s0 + 1) n) w = some wf
      have hcmd : dynBundleCommand dbg s0 w = some { w with
          dynMarker := fun m => if m = s0 then none else w.dynMarker m,
          comps := fun m => if m = s0 then applyChain (f s0) (w.comps m) else w.comps m } := by
        simp [dynBundleCommand, ha, hb]
      simp [drainAux, hcmd, hdrain]
    · intro e he1 he2
      by_cases hse : e = s0
      · subst hse
        obtain ⟨hd, hc⟩ := hout e (Or.inl (by omega))
        exact ⟨by simpa using hd, by simpa using hc⟩
      · obtain ⟨hd, hc⟩ := hin e (by omega) (by omega)
        refine ⟨hd, ?_⟩
        rw [hc]
        simp [hse]
    · intro e he
      have hne : e ≠ s0 := by omega
      obtain ⟨hd, hc⟩ := hout e (by omega)
      exact ⟨by simpa [hne] using hd, by simpa [hne] using hc⟩

theorem getD_eq_get {α : Type} (d : α) :
    ∀ (l : List α) (i : Nat) (h : i < l.length), l.getD i d = l.get ⟨i, h⟩ := by
  intro l
  induction l with
  | nil =>
    intro i h
    exact absurd h (by simp)
  | cons a l ih =>
    intro i h
    cases i with
    | zero => rfl
    | succ j => exact ih j (by simpa using h)

/-- C8: from a parent `p` that is alive and carries a `Children` marker
holding the ordered chains `bs`, in a world with an empty command queue and
fresh ids from `nextId` on, `ChildrenCommand` followed by draining the queue
succeeds and yields exactly `bs.length` newly created entities — ids
`nextId, nextId+1, ...` in the sequence's declared order — each alive, each a
child of `p`, each holding exactly the components its own chain produces on a
fresh entity, with its one-shot marker consumed; the `Children` marker is
gone from `p`, pre-existing entities keep their fields, and no other entity
became alive. -/
theorem children_command_spawns_in_order (dbg : Bool) (p : Nat) (bs : List DynBundle)
    (w : EWorld)
    (hp : w.alive p = true)
    (hm : w.childrenMarker p = some bs)
    (hq : w.queue = [])
    (hfresh : ∀ n, w.nextId ≤ n →
      w.alive n = false ∧ w.dynMarker n = none ∧ w.comps n = []) :
    ∃ w1 wf, childrenCommand dbg p w = some w1 ∧ drainQueue dbg w1 = some wf ∧
      wf.nextId = w.nextId + bs.length ∧
      (∀ i (hi : i < bs.length),
        wf.alive (w.nextId + i) = true ∧
        wf.parentOf (w.nextId + i) = some p ∧
        wf.comps (w.nextId + i) = applyChain (bs.get ⟨i, hi⟩) [] ∧
        wf.dynMarker (w.nextId + i) = none) ∧
      wf.childrenMarker p = none ∧
      (∀ n, n < w.nextId →
        wf.alive n = w.alive n ∧ wf.comps n = w.comps n ∧
        wf.parentOf n = w.parentOf n) ∧
      (∀ n, wf.alive n = true →
        w.alive n = true ∨ (w.nextId ≤ n ∧ n < w.nextId + bs.length)) := by
  set w0 : EWorld :=
    { w with childrenMarker := fun n => if n = p then none else w.childrenMarker n } with hw0
  have hcc : childrenCommand dbg p w = some (spawnFold p bs w0) := by
    simp [childrenCommand, hp, hm, hw0]
  obtain ⟨sN, sC, sM, sQ, sOut, sIn⟩ := spawnFold_spec p bs w0
  set w1 : EWorld := spawnFold p bs w0 with hw1
  set w1z : EWorld := { w1 with queue := [] } with hw1z
  have hqueue : w1.queue = idsFrom w.nextId bs.length := by
    rw [sQ]
    show w.queue ++ idsFrom w.nextId bs.length = _
    rw [hq]
    rfl
  obtain ⟨wf, hdrain, hN, hA, hP, hM, hQ2, hin, hout⟩ :=
    drain_idsFrom dbg (fun e => bs.getD (e - w.nextId) DynBundle.default)
      bs.length w.nextId w1z
      (by
        intro e he1 he2
        have hi : e - w.nextId < bs.length := by omega
        obtain ⟨a1, a2, a3⟩ := sIn (e - w.nextId) hi
        have hee : w0.nextId + (e - w.nextId) = e := by
          show w.nextId + (e - w.nextId) = e
          omega
        rw [hee] at a1 a2
        refine ⟨a1, ?_⟩
        show w1.dynMarker e = some (bs.getD (e - w.nextId) DynBundle.default)
        rw [a2, getD_eq_get DynBundle.default bs (e - w.nextId) hi])
  have hdq : drainQueue dbg w1 = some wf := by
    show drainAux dbg w1.queue { w1 with queue := [] } = some wf
    rw [hqueue, ← hw1z]
    exact hdrain
  refine ⟨w1, wf, hcc, hdq, ?_, ?_, ?_, ?_, ?_⟩
  · rw [hN]
    show w1.nextId = _
    rw [sN]
  · intro i hi
    have he1 : w.nextId ≤ w.nextId + i := by omega
    have he2 : w.nextId + i < w.nextId + bs.length := by omega
    obtain ⟨hd, hc⟩ := hin (w.nextId + i) he1 he2
    obtain ⟨a1, a2, a3⟩ := sIn i hi
    have hee : w0.nextId + i = w.nextId + i := rfl
    rw [hee] at a1 a3
    refine ⟨?_, ?_, ?_, hd⟩
    · rw [hA]
      exact a1
    · rw [hP]
      exact a3
    · rw [hc]
      have hsub : w.nextId + i - w.nextId = i := by omega
      have hcomps : w1z.comps (w.nextId + i) = [] := by
        show w1.comps (w.nextId + i) = []
        rw [sC]
        exact (hfresh (w.nextId + i) he1).2.2
      rw [hcomps, hsub, getD_eq_get DynBundle.default bs i hi]
  · rw [hM]
    show w1.childrenMarker p = none
    rw [sM]
    simp [hw0]
  · intro n hn
    obtain ⟨b1, b2, b3⟩ := sOut n (Or.inl (show n < w0.nextId from hn))
    obtain ⟨-, hc⟩ := hout n (Or.inl hn)
    refine ⟨?_, ?_, ?_⟩
    · rw [hA]
      exact b1
    · rw [hc]
      show w1.comps n = w.comps n
      rw [sC]
    · rw [hP]
      exact b3
  · intro n hn
    rw [hA] at hn
    by_cases h1 : n < w.nextId
    · obtain ⟨b1, -, -⟩ := sOut n (Or.inl (show n < w0.nextId from h1))
      left
      have hb : w1.alive n = w.alive n := b1
      rw [← hb]
      exact hn
    · by_cases h2 : w.nextId + bs.length ≤ n
      · obtain ⟨b1, -, -⟩ := sOut n (Or.inr (show w0.nextId + bs.length ≤ n from h2))
        left
        have : w1.alive n = w.alive n := b1
        rw [← this]
        exact hn
      · exact Or.inr ⟨by omega, by omega⟩

/-- A concrete world for the C8 witness: entity 0 alive carrying a
`Children` marker with two one-insert chains; ids from 1 are fresh. -/
def W8 : EWorld :=
  ⟨1, fun n => decide (n = 0), fun _ => none,
    fun n => if n = 0 then some [DynBundle.new [(0, 1)], DynBundle.new [(1, 2)]] else none,
    fun _ => none, fun _ => [], []⟩

/-- Witness for C8: on `W8`, the command and flush create exactly entities 1
and 2, children of 0 in declared order, with their chains' components, and
consume the marker. -/
theorem children_command_spawns_in_order_witness :
    ∃ w1 wf, childrenCommand true 0 W8 = some w1 ∧ drainQueue true w1 = some wf ∧
      wf.nextId = 3 ∧ wf.alive 1 = true ∧ wf.parentOf 1 = some 0 ∧
      wf.comps 1 = [(0, 1)] ∧ wf.alive 2 = true ∧ wf.parentOf 2 = some 0 ∧
      wf.comps 2 = [(1, 2)] ∧ wf.childrenMarker 0 = none := by
  obtain ⟨w1, wf, h1, h2, h3, h4, h5, -, -⟩ :=
    children_command_spawns_in_order true 0 [DynBundle.new [(0, 1)], DynBundle.new [(1, 2)]]
      W8 rfl rfl rfl
      (by
        intro n hn
        have hn1 : 1 ≤ n := hn
        refine ⟨?_, rfl, rfl⟩
        show decide (n = 0) = false
        simp only [decide_eq_false_iff_not]
        omega)
  obtain ⟨a1, a2, a3, -⟩ := h4 0 (by norm_num)
  obtain ⟨b1, b2, b3, -⟩ := h4 1 (by norm_num)
  refine ⟨w1, wf, h1, h2, by simpa [W8] using h3, ?_, ?_, ?_, ?_, ?_, ?_, h5⟩
  · simpa [W8] using a1
  · simpa [W8] using a2
  · simpa [W8, DynBundle.new, applyChain, applyOp, insertComp] using a3
  · simpa [W8] using b1
  · simpa [W8] using b2
  · simpa [W8, DynBundle.new, applyChain, applyOp, insertComp] using b3

/-! ## Panic behaviour of the relationship hooks on a missing referent -/

/-- World view seen by a relationship hook: aliveness plus the two
relationship fields. -/
structure HWorld where
  alive : Nat → Bool
  target : Nat → Option Nat
  targetBy : Nat → Option Nat

/-- The `Target` `on_insert` hook with its entity-existence checks, returning
the commands it enqueues; `none` models a panic.  The initial
`get_entity(entity)` and `get::<Target>()` guards are gated on
`debug_assertions` (`dbg`), but the `world.entity(target)` lookup is
unchecked and panics in every build when `target` is not alive. -/
def targetOnInsert (dbg : Bool) (e : Nat) (w : HWorld) : Option (List Cmd) :=
  if w.alive e = true then
    match w.target e with
    | some t =>
        if w.alive t = true then
          if w.targetBy t = some e then some []
          else some [Cmd.insTB t e]
        else none
    | none => if dbg then none else some []
  else if dbg then none else some []

/-- The `TargetBy` `on_insert` hook, exact mirror of `targetOnInsert`. -/
def targetByOnInsert (dbg : Bool) (e : Nat) (w : HWorld) : Option (List Cmd) :=
  if w.alive e = true then
    match w.targetBy e with
    | some x =>
        if w.alive x = true then
          if w.target x = some e then some []
          else some [Cmd.insT x e]
        else none
    | none => if dbg then none else some []
  else if dbg then none else some []

/-- C10: if `Target(t)` sits on a live entity `e` while `t` is not alive, the
synchronous `on_insert` hook panics through the unchecked `world.entity`
lookup in every build configuration (`dbg` arbitrary) — there is no
silent-no-op path for this case — and symmetrically for `TargetBy`. -/
theorem hooks_panic_on_missing_referent (dbg : Bool) (e t : Nat) (w : HWorld)
    (he : w.alive e = true) (ht : w.alive t = false) :
    (w.target e = some t → targetOnInsert dbg e w = none) ∧
    (w.targetBy e = some t → targetByOnInsert dbg e w = none) := by
  constructor
  · intro hv
    simp [targetOnInsert, he, hv, ht]
  · intro hv
    simp [targetByOnInsert, he, hv, ht]

/-- A concrete world for the C10 witness: entity 0 alive, holding `Target`
and `TargetBy` references to the dead entity 5. -/
def WH : HWorld :=
  ⟨fun n => decide (n = 0),
    fun n => if n = 0 then some 5 else none,
    fun n => if n = 0 then some 5 else none⟩

/-- Witness for C10: on `WH` both hooks panic for entity 0, in debug and
release alike. -/
theorem hooks_panic_on_missing_referent_witness :
    targetOnInsert true 0 WH = none ∧ targetOnInsert false 0 WH = none ∧
    targetByOnInsert true 0 WH = none ∧ targetByOnInsert false 0 WH = none :=
  ⟨(hooks_panic_on_missing_referent true 0 5 WH rfl rfl).1 rfl,
    (hooks_panic_on_missing_referent false 0 5 WH rfl rfl).1 rfl,
    (hooks_panic_on_missing_referent true 0 5 WH rfl rfl).2 rfl,
    (hooks_panic_on_missing_referent false 0 5 WH rfl rfl).2 rfl⟩
